import Mathlib

/-!
Verification development for the `rusty-env` file-backed configuration store.

The Rust source keeps a `Database` aggregate (a map from project name to
`Project`, plus `Metadata`) behind a reader/writer lock, mutates it in
memory, and persists the whole aggregate after every successful mutation
(`src/db/store.rs`, `src/src/models/mod.rs`).

We model Rust's `HashMap<String, V>` as an association list
`List (String × V)`; the store's well-formed states have no duplicate keys.
`insert` replaces the value in place when the key is present (as
`HashMap::insert` does) and appends otherwise; `erase` removes the entries
with the key.  Timestamps (`chrono::DateTime<Utc>` serialized as epoch
seconds) are modelled as `Nat`, and the nondeterministic inputs of the code
(the current time from `chrono::Utc::now()`, the fresh uuid of
`Project::new`) are explicit parameters.  File persistence (`save`) only
re-serializes the aggregate, so the in-memory `Database` transition function
is the whole observable behaviour of each store operation; operations return
their `Result` together with the resulting in-memory aggregate, which also
captures mutations that happen before an error return.
-/

namespace RustyEnv

/-! ### Association-list maps (model of `HashMap<String, V>`) -/

namespace RM

def lookup {α : Type} : List (String × α) → String → Option α
  | [], _ => none
  | kv :: rest, k => if kv.1 = k then some kv.2 else lookup rest k

def contains {α : Type} : List (String × α) → String → Bool
  | [], _ => false
  | kv :: rest, k => if kv.1 = k then true else contains rest k

/-- In-place replacement at an existing key, as `HashMap::insert` on a
present key. -/
def setKey {α : Type} : List (String × α) → String → α → List (String × α)
  | [], _, _ => []
  | kv :: rest, k, v => if kv.1 = k then (k, v) :: rest else kv :: setKey rest k v

def insert {α : Type} (m : List (String × α)) (k : String) (v : α) :
    List (String × α) :=
  if contains m k then setKey m k v else m ++ [(k, v)]

def erase {α : Type} : List (String × α) → String → List (String × α)
  | [], _ => []
  | kv :: rest, k => if kv.1 = k then erase rest k else kv :: erase rest k

def keys {α : Type} (m : List (String × α)) : List String :=
  m.map Prod.fst

def values {α : Type} (m : List (String × α)) : List α :=
  m.map Prod.snd

end RM

/-! ### Entity model (`src/src/models/mod.rs`) -/

/-- Rust `EnvVariable { value, encrypted, created_at, updated_at }`. -/
structure EnvVariable where
  value : String
  encrypted : Bool
  created_at : Nat
  updated_at : Nat
deriving DecidableEq, Repr

/-- `EnvVariable::new(value, encrypted)`; `now` stands for `chrono::Utc::now()`. -/
def EnvVariable.new (value : String) (encrypted : Bool) (now : Nat) :
    EnvVariable :=
  { value := value, encrypted := encrypted, created_at := now, updated_at := now }

/-- Rust `pub type Environment = HashMap<String, EnvVariable>`. -/
abbrev Environment : Type := List (String × EnvVariable)

/-- Rust `Project` with `environments: HashMap<String, Environment>`. -/
structure Project where
  id : String
  name : String
  description : Option String
  environments : List (String × Environment)
  created_at : Nat
  updated_at : Nat
deriving DecidableEq, Repr

/-- `Project::new(name, description)`; `id` stands for the fresh
`uuid::Uuid::new_v4()` and `now` for `chrono::Utc::now()`. -/
def Project.new (id : String) (name : String) (description : Option String)
    (now : Nat) : Project :=
  { id := id, name := name, description := description, environments := [],
    created_at := now, updated_at := now }

/-- `Project::update_timestamp`, with the current time explicit. -/
def Project.update_timestamp (p : Project) (now : Nat) : Project :=
  { p with updated_at := now }

/-- Rust `Metadata { version, last_backup }`. -/
structure Metadata where
  version : String
  last_backup : Nat
deriving DecidableEq, Repr

/-- `Metadata::default()`; `now` stands for `chrono::Utc::now()`. -/
def Metadata.default (now : Nat) : Metadata :=
  { version := "1.0.0", last_backup := now }

/-- Rust `Database { projects: HashMap<String, Project>, metadata }`. -/
structure Database where
  projects : List (String × Project)
  metadata : Metadata
deriving DecidableEq, Repr

/-- `Database::default()`: empty project map, default metadata. -/
def Database.default (now : Nat) : Database :=
  { projects := [], metadata := Metadata.default now }

/-- The `AppError` variants produced by the store (`src/src/error.rs`
names them `ProjectNotFound`, `ProjectAlreadyExists`, `EnvironmentNotFound`,
`VariableNotFound`). -/
inductive AppError where
  | ProjectNotFound (name : String)
  | ProjectAlreadyExists (name : String)
  | EnvironmentNotFound (name : String)
  | VariableNotFound (name : String)
deriving DecidableEq, Repr

/-! ### Store operations (`src/db/store.rs`)

Each mutating operation returns its `Result` paired with the in-memory
`Database` after the call; error paths return the aggregate as the code
leaves it (for `update_project` this may differ from the input, because the
code assigns the new description through `get_mut` before checking the
rename for a name conflict). -/

/-- `JsonStore::create_project` (store.rs lines 43–56). -/
def create_project (db : Database) (name : String)
    (description : Option String) (id : String) (now : Nat) :
    Except AppError Project × Database :=
  if RM.contains db.projects name then
    (.error (.ProjectAlreadyExists name), db)
  else
    let project := Project.new id name description now
    (.ok project, { db with projects := RM.insert db.projects name project })

/-- `JsonStore::get_project` (store.rs lines 58–64); read-only. -/
def get_project (db : Database) (name : String) : Except AppError Project :=
  match RM.lookup db.projects name with
  | some p => .ok p
  | none => .error (.ProjectNotFound name)

/-- `JsonStore::list_projects` (store.rs lines 66–69); read-only. -/
def list_projects (db : Database) : List Project :=
  RM.values db.projects

/-- The in-place `project.description = Some(desc)` assignment of
`update_project` (store.rs lines 84–86), applied for a present argument. -/
def applyDescription (p : Project) (description : Option String) : Project :=
  match description with
  | some desc => { p with description := some desc }
  | none => p

/-- `JsonStore::update_project` (store.rs lines 71–111). -/
def update_project (db : Database) (name : String) (new_name : Option String)
    (description : Option String) (now : Nat) :
    Except AppError Project × Database :=
  match RM.lookup db.projects name with
  | none => (.error (.ProjectNotFound name), db)
  | some project =>
    let project := applyDescription project description
    let db := { db with projects := RM.insert db.projects name project }
    match new_name with
    | some new_name =>
      if new_name ≠ name ∧ RM.contains db.projects new_name then
        (.error (.ProjectAlreadyExists new_name), db)
      else
        let updated_project :=
          { project with name := new_name, updated_at := now }
        (.ok updated_project,
          { db with projects :=
              RM.insert (RM.erase db.projects name) new_name updated_project })
    | none =>
      let updated_project := project.update_timestamp now
      (.ok updated_project,
        { db with projects := RM.insert db.projects name updated_project })

/-- `JsonStore::delete_project` (store.rs lines 113–125). -/
def delete_project (db : Database) (name : String) :
    Except AppError Unit × Database :=
  if RM.contains db.projects name then
    (.ok (), { db with projects := RM.erase db.projects name })
  else
    (.error (.ProjectNotFound name), db)

/-- `JsonStore::set_variable` (store.rs lines 128–152): creates the
environment on demand (`entry(...).or_insert_with(HashMap::new)`), fully
replaces the variable at `key`, refreshes the project timestamp. -/
def set_variable (db : Database) (project_name env key value : String)
    (encrypted : Bool) (now : Nat) : Except AppError EnvVariable × Database :=
  match RM.lookup db.projects project_name with
  | none => (.error (.ProjectNotFound project_name), db)
  | some project =>
    let environment := (RM.lookup project.environments env).getD []
    let envVar := EnvVariable.new value encrypted now
    let environment := RM.insert environment key envVar
    let project :=
      { project with
          environments := RM.insert project.environments env environment,
          updated_at := now }
    (.ok envVar,
      { db with projects := RM.insert db.projects project_name project })

/-- `JsonStore::get_variable` (store.rs lines 154–171); read-only. -/
def get_variable (db : Database) (project_name env key : String) :
    Except AppError EnvVariable :=
  match RM.lookup db.projects project_name with
  | none => .error (.ProjectNotFound project_name)
  | some project =>
    match RM.lookup project.environments env with
    | none => .error (.EnvironmentNotFound env)
    | some environment =>
      match RM.lookup environment key with
      | none => .error (.VariableNotFound key)
      | some envVar => .ok envVar

/-- `JsonStore::get_environment` (store.rs lines 173–186); read-only. -/
def get_environment (db : Database) (project_name env : String) :
    Except AppError Environment :=
  match RM.lookup db.projects project_name with
  | none => .error (.ProjectNotFound project_name)
  | some project =>
    match RM.lookup project.environments env with
    | none => .error (.EnvironmentNotFound env)
    | some environment => .ok environment

/-- `JsonStore::list_environments` (store.rs lines 188–197); read-only. -/
def list_environments (db : Database) (project_name : String) :
    Except AppError (List (String × Environment)) :=
  match RM.lookup db.projects project_name with
  | none => .error (.ProjectNotFound project_name)
  | some project => .ok project.environments

/-- `JsonStore::delete_variable` (store.rs lines 199–222). -/
def delete_variable (db : Database) (project_name env key : String)
    (now : Nat) : Except AppError Unit × Database :=
  match RM.lookup db.projects project_name with
  | none => (.error (.ProjectNotFound project_name), db)
  | some project =>
    match RM.lookup project.environments env with
    | none => (.error (.EnvironmentNotFound env), db)
    | some environment =>
      if ¬RM.contains environment key then
        (.error (.VariableNotFound key), db)
      else
        let environment := RM.erase environment key
        let project :=
          { project with
              environments := RM.insert project.environments env environment,
              updated_at := now }
        (.ok (),
          { db with projects := RM.insert db.projects project_name project })

/-! ### Well-formed databases and operation sequences -/

/-- Every project sits in `Database.projects` under its own name. -/
def NamesMatch (m : List (String × Project)) : Prop :=
  ∀ kv ∈ m, (kv.2 : Project).name = kv.1

/-- Valid database states: no duplicate project keys, and the map key of
each project equals its `name` field. -/
def ValidDb (db : Database) : Prop :=
  (RM.keys db.projects).Nodup ∧ NamesMatch db.projects

instance (m : List (String × Project)) : Decidable (NamesMatch m) :=
  List.decidableBAll _ m

instance (db : Database) : Decidable (ValidDb db) :=
  inferInstanceAs
    (Decidable ((RM.keys db.projects).Nodup ∧ NamesMatch db.projects))

/-- One observable store call, with the nondeterministic inputs (fresh id,
current time) recorded in the operation. -/
inductive Op where
  | createProject (name : String) (description : Option String) (id : String)
      (now : Nat)
  | getProject (name : String)
  | listProjectsOp
  | updateProject (name : String) (new_name : Option String)
      (description : Option String) (now : Nat)
  | deleteProject (name : String)
  | setVariable (project_name env key value : String) (encrypted : Bool)
      (now : Nat)
  | getVariable (project_name env key : String)
  | getEnvironment (project_name env : String)
  | listEnvironmentsOp (project_name : String)
  | deleteVariable (project_name env key : String) (now : Nat)
deriving DecidableEq, Repr

/-- The database state after one store call (read-only calls leave it
untouched). -/
def step (db : Database) : Op → Database
  | .createProject name d i n => (create_project db name d i n).2
  | .getProject _ => db
  | .listProjectsOp => db
  | .updateProject name nn d n => (update_project db name nn d n).2
  | .deleteProject name => (delete_project db name).2
  | .setVariable pn e k v enc n => (set_variable db pn e k v enc n).2
  | .getVariable _ _ _ => db
  | .getEnvironment _ _ => db
  | .listEnvironmentsOp _ => db
  | .deleteVariable pn e k n => (delete_variable db pn e k n).2

/-- The database state after a sequence of store calls. -/
def run (db : Database) (ops : List Op) : Database :=
  ops.foldl step db

/-! ### Persistence codec

`JsonStore::new` parses the backing file with `serde_json::from_str` into a
`Database` and `JsonStore::save` writes it back with
`serde_json::to_string_pretty`.  We model the codec at the level of JSON
values: every struct is an object with its field names, `HashMap<String, V>`
is an object keyed by the map keys, `Option<String>` is `null` or a string
(a missing field decodes to `None`, as serde does for `Option` fields), and
the `chrono::serde::ts_seconds` timestamps are integers.  Decoders look
fields up by name, so they accept any field order, exactly like serde. -/

inductive Json where
  | null
  | bool (b : Bool)
  | num (n : Nat)
  | str (s : String)
  | obj (fields : List (String × Json))

def encodeEnvVariable (v : EnvVariable) : Json :=
  .obj [("value", .str v.value), ("encrypted", .bool v.encrypted),
        ("created_at", .num v.created_at), ("updated_at", .num v.updated_at)]

def decodeEnvVariable : Json → Option EnvVariable
  | .obj l =>
    match RM.lookup l "value", RM.lookup l "encrypted",
        RM.lookup l "created_at", RM.lookup l "updated_at" with
    | some (.str v), some (.bool e), some (.num c), some (.num u) =>
      some { value := v, encrypted := e, created_at := c, updated_at := u }
    | _, _, _, _ => none
  | _ => none

/-- Decode every entry of a JSON object with `dec`, failing if any entry
fails (how serde decodes a `HashMap<String, V>` body). -/
def decodeEntries {α : Type} (dec : Json → Option α) :
    List (String × Json) → Option (List (String × α))
  | [] => some []
  | kv :: rest =>
    match dec kv.2, decodeEntries dec rest with
    | some v, some tail => some ((kv.1, v) :: tail)
    | _, _ => none

def encodeEnvironment (env : Environment) : Json :=
  .obj (env.map (fun kv => (kv.1, encodeEnvVariable kv.2)))

def decodeEnvironment : Json → Option Environment
  | .obj l => decodeEntries decodeEnvVariable l
  | _ => none

def encodeDescription : Option String → Json
  | some s => .str s
  | none => .null

def decodeDescription : Option Json → Option (Option String)
  | none => some none
  | some .null => some none
  | some (.str s) => some (some s)
  | _ => none

def encodeProject (p : Project) : Json :=
  .obj [("id", .str p.id), ("name", .str p.name),
        ("description", encodeDescription p.description),
        ("environments",
          .obj (p.environments.map (fun kv => (kv.1, encodeEnvironment kv.2)))),
        ("created_at", .num p.created_at), ("updated_at", .num p.updated_at)]

def decodeProject : Json → Option Project
  | .obj l =>
    match RM.lookup l "id", RM.lookup l "name",
        decodeDescription (RM.lookup l "description"),
        RM.lookup l "environments",
        RM.lookup l "created_at", RM.lookup l "updated_at" with
    | some (.str i), some (.str n), some d, some (.obj envs),
        some (.num c), some (.num u) =>
      match decodeEntries decodeEnvironment envs with
      | some es =>
        some { id := i, name := n, description := d, environments := es,
               created_at := c, updated_at := u }
      | none => none
    | _, _, _, _, _, _ => none
  | _ => none

def encodeMetadata (m : Metadata) : Json :=
  .obj [("version", .str m.version), ("last_backup", .num m.last_backup)]

def decodeMetadata : Json → Option Metadata
  | .obj l =>
    match RM.lookup l "version", RM.lookup l "last_backup" with
    | some (.str v), some (.num b) => some { version := v, last_backup := b }
    | _, _ => none
  | _ => none

def encodeDatabase (db : Database) : Json :=
  .obj [("projects",
          .obj (db.projects.map (fun kv => (kv.1, encodeProject kv.2)))),
        ("metadata", encodeMetadata db.metadata)]

def decodeDatabase : Json → Option Database
  | .obj l =>
    match RM.lookup l "projects", RM.lookup l "metadata" with
    | some (.obj ps), some mj =>
      match decodeEntries decodeProject ps, decodeMetadata mj with
      | some projects, some metadata =>
        some { projects := projects, metadata := metadata }
      | _, _ => none
    | _, _ => none
  | _ => none

/-! ### Sample data used to instantiate the hypotheses of the theorems -/

def pA : Project := Project.new "id-a" "A" none 0

def pB : Project := Project.new "id-b" "B" none 0

def sampleDb : Database :=
  { projects := [("A", pA), ("B", pB)], metadata := Metadata.default 0 }

def pVar : Project :=
  { id := "id-a", name := "A", description := none,
    environments :=
      [("prod", [("DB_URL", EnvVariable.new "postgres" false 7)])],
    created_at := 0, updated_at := 7 }

def dbWithVar : Database :=
  { projects := [("A", pVar), ("B", pB)], metadata := Metadata.default 0 }

/-! ### Lemmas about the association-list maps -/

namespace RM

variable {α : Type}

theorem contains_iff_mem_keys (m : List (String × α)) (k : String) :
    contains m k = true ↔ k ∈ keys m := by
  induction m with
  | nil => simp [contains, keys]
  | cons kv rest ih =>
    by_cases hk : kv.1 = k
    · simp [contains, keys, hk]
    · simp [contains, keys, hk, ih, Ne.symm hk]

theorem lookup_eq_none_of_not_contains (m : List (String × α)) (k : String)
    (h : contains m k = false) : lookup m k = none := by
  induction m with
  | nil => rfl
  | cons kv rest ih =>
    by_cases hk : kv.1 = k
    · simp [contains, hk] at h
    · simp only [contains, hk, if_false] at h
      simp [lookup, hk, ih h]

theorem contains_of_lookup_eq_some {m : List (String × α)} {k : String}
    {v : α} (h : lookup m k = some v) : contains m k = true := by
  induction m with
  | nil => simp [lookup] at h
  | cons kv rest ih =>
    by_cases hk : kv.1 = k
    · simp [contains, hk]
    · simp only [lookup, hk, if_false] at h
      simp [contains, hk, ih h]

theorem mem_of_lookup_eq_some {m : List (String × α)} {k : String} {v : α}
    (h : lookup m k = some v) : (k, v) ∈ m := by
  induction m with
  | nil => simp [lookup] at h
  | cons kv rest ih =>
    by_cases hk : kv.1 = k
    · simp only [lookup, hk, if_true, Option.some.injEq] at h
      cases kv with
      | mk a b =>
        simp only at hk h
        subst hk
        subst h
        exact List.mem_cons_self _ _
    · simp only [lookup, hk, if_false] at h
      exact List.mem_cons_of_mem _ (ih h)

theorem lookup_setKey_self {m : List (String × α)} {k : String} (v : α)
    (h : contains m k = true) : lookup (setKey m k v) k = some v := by
  induction m with
  | nil => simp [contains] at h
  | cons kv rest ih =>
    by_cases hk : kv.1 = k
    · simp [setKey, hk, lookup]
    · simp only [contains, hk, if_false] at h
      simp [setKey, hk, lookup, ih h]

theorem lookup_setKey_ne (m : List (String × α)) (k k' : String) (v : α)
    (h : k' ≠ k) : lookup (setKey m k v) k' = lookup m k' := by
  induction m with
  | nil => rfl
  | cons kv rest ih =>
    by_cases hk : kv.1 = k
    · simp [setKey, hk, lookup, Ne.symm h, hk ▸ Ne.symm h]
    · by_cases hk' : kv.1 = k'
      · simp [setKey, hk, lookup, hk', h]
      · simp [setKey, hk, lookup, hk', ih]

theorem lookup_append_right (m : List (String × α)) (k : String) (v : α)
    (h : contains m k = false) : lookup (m ++ [(k, v)]) k = some v := by
  induction m with
  | nil => simp [lookup]
  | cons kv rest ih =>
    by_cases hk : kv.1 = k
    · simp [contains, hk] at h
    · simp only [contains, hk, if_false] at h
      simp [lookup, hk, ih h]

theorem lookup_append_ne (m : List (String × α)) (k k' : String) (v : α)
    (h : k' ≠ k) : lookup (m ++ [(k, v)]) k' = lookup m k' := by
  induction m with
  | nil => simp [lookup, Ne.symm h]
  | cons kv rest ih =>
    by_cases hk' : kv.1 = k'
    · simp [lookup, hk']
    · simp [lookup, hk', ih]

theorem lookup_insert (m : List (String × α)) (k : String) (v : α) :
    lookup (insert m k v) k = some v := by
  unfold insert
  by_cases hc : contains m k
  · simp only [hc, if_true]
    exact lookup_setKey_self v hc
  · simp only [hc, if_false]
    exact lookup_append_right m k v (by simpa using hc)

theorem lookup_insert_ne (m : List (String × α)) (k k' : String) (v : α)
    (h : k' ≠ k) : lookup (insert m k v) k' = lookup m k' := by
  unfold insert
  by_cases hc : contains m k
  · simp only [hc, if_true]
    exact lookup_setKey_ne m k k' v h
  · simp only [hc, if_false]
    exact lookup_append_ne m k k' v h

theorem lookup_erase (m : List (String × α)) (k : String) :
    lookup (erase m k) k = none := by
  induction m with
  | nil => rfl
  | cons kv rest ih =>
    by_cases hk : kv.1 = k
    · simp [erase, hk, ih]
    · simp [erase, hk, lookup, ih]

theorem lookup_erase_ne (m : List (String × α)) (k k' : String)
    (h : k' ≠ k) : lookup (erase m k) k' = lookup m k' := by
  induction m with
  | nil => rfl
  | cons kv rest ih =>
    by_cases hk : kv.1 = k
    · have : kv.1 ≠ k' := by rw [hk]; exact Ne.symm h
      simp [erase, hk, lookup, this, ih, Ne.symm h]
    · by_cases hk' : kv.1 = k'
      · simp [erase, hk, lookup, hk', h]
      · simp [erase, hk, lookup, hk', ih]

theorem mem_of_mem_erase {m : List (String × α)} {k : String}
    {kv : String × α} (h : kv ∈ erase m k) : kv ∈ m := by
  induction m with
  | nil => simp [erase] at h
  | cons kv' rest ih =>
    by_cases hk : kv'.1 = k
    · simp only [erase, hk, if_true] at h
      exact List.mem_cons_of_mem _ (ih h)
    · simp only [erase, hk, if_false, List.mem_cons] at h
      rcases h with h | h
      · exact h ▸ List.mem_cons_self _ _
      · exact List.mem_cons_of_mem _ (ih h)

theorem fst_ne_of_mem_erase {m : List (String × α)} {k : String}
    {kv : String × α} (h : kv ∈ erase m k) : kv.1 ≠ k := by
  induction m with
  | nil => simp [erase] at h
  | cons kv' rest ih =>
    by_cases hk : kv'.1 = k
    · simp only [erase, hk, if_true] at h
      exact ih h
    · simp only [erase, hk, if_false, List.mem_cons] at h
      rcases h with h | h
      · exact h ▸ hk
      · exact ih h

theorem mem_setKey {m : List (String × α)} {k : String} {v : α}
    {kv : String × α} (h : kv ∈ setKey m k v) : kv = (k, v) ∨ kv ∈ m := by
  induction m with
  | nil => simp [setKey] at h
  | cons kv' rest ih =>
    by_cases hk : kv'.1 = k
    · simp only [setKey, hk, if_true, List.mem_cons] at h
      rcases h with h | h
      · exact Or.inl h
      · exact Or.inr (List.mem_cons_of_mem _ h)
    · simp only [setKey, hk, if_false, List.mem_cons] at h
      rcases h with h | h
      · exact Or.inr (h ▸ List.mem_cons_self _ _)
      · rcases ih h with h' | h'
        · exact Or.inl h'
        · exact Or.inr (List.mem_cons_of_mem _ h')

theorem mem_insert {m : List (String × α)} {k : String} {v : α}
    {kv : String × α} (h : kv ∈ insert m k v) : kv = (k, v) ∨ kv ∈ m := by
  unfold insert at h
  by_cases hc : contains m k
  · simp only [hc, if_true] at h
    exact mem_setKey h
  · simp [hc, List.mem_append] at h
    tauto

theorem keys_setKey (m : List (String × α)) (k : String) (v : α)
    (h : contains m k = true) : keys (setKey m k v) = keys m := by
  induction m with
  | nil => rfl
  | cons kv rest ih =>
    by_cases hk : kv.1 = k
    · simp [setKey, hk, keys]
    · simp only [contains, hk, if_false] at h
      have hrec := ih h
      simp only [setKey, hk, if_false, keys, List.map_cons] at hrec ⊢
      rw [hrec]

theorem keys_insert (m : List (String × α)) (k : String) (v : α) :
    keys (insert m k v) = if contains m k then keys m else keys m ++ [k] := by
  unfold insert
  by_cases hc : contains m k
  · simp [hc, keys_setKey m k v hc]
  · simp [hc, keys]

theorem nodup_keys_insert (m : List (String × α)) (k : String) (v : α)
    (h : (keys m).Nodup) : (keys (insert m k v)).Nodup := by
  rw [keys_insert]
  by_cases hc : contains m k
  · simpa [hc] using h
  · simp only [hc, if_false]
    refine List.Nodup.append h (List.nodup_singleton k) ?_
    intro a ha hb
    rw [List.mem_singleton] at hb
    subst hb
    exact absurd ((contains_iff_mem_keys m a).mpr ha) (by simpa using hc)

theorem mem_keys_of_mem_keys_erase {m : List (String × α)} {k a : String}
    (h : a ∈ keys (erase m k)) : a ∈ keys m := by
  induction m with
  | nil => simp [erase, keys] at h
  | cons kv rest ih =>
    by_cases hk : kv.1 = k
    · simp only [erase, hk, if_true] at h
      exact List.mem_cons_of_mem _ (ih h)
    · simp only [erase, hk, if_false, keys, List.map_cons, List.mem_cons] at h ⊢
      rcases h with h | h
      · exact Or.inl h
      · exact Or.inr (ih h)

theorem contains_insert_ne (m : List (String × α)) (k k' : String) (v : α)
    (h : k' ≠ k) : contains (insert m k v) k' = contains m k' := by
  rw [Bool.eq_iff_iff, contains_iff_mem_keys, contains_iff_mem_keys,
    keys_insert]
  by_cases hc : contains m k
  · simp [hc]
  · simp [hc, h]

theorem nodup_keys_erase (m : List (String × α)) (k : String)
    (h : (keys m).Nodup) : (keys (erase m k)).Nodup := by
  induction m with
  | nil => simp [erase, keys]
  | cons kv rest ih =>
    simp only [keys, List.map_cons, List.nodup_cons] at h
    by_cases hk : kv.1 = k
    · simp only [erase, hk, if_true]
      exact ih h.2
    · simp only [erase, hk, if_false, keys, List.map_cons, List.nodup_cons]
      exact ⟨fun hm => h.1 (mem_keys_of_mem_keys_erase hm), ih h.2⟩

end RM

/-! ### Preservation of well-formedness -/

theorem namesMatch_insert {m : List (String × Project)} {k : String}
    {v : Project} (h : NamesMatch m) (hv : v.name = k) :
    NamesMatch (RM.insert m k v) := by
  intro kv hkv
  rcases RM.mem_insert hkv with heq | hmem
  · rw [heq]; exact hv
  · exact h kv hmem

theorem namesMatch_erase {m : List (String × Project)} {k : String}
    (h : NamesMatch m) : NamesMatch (RM.erase m k) :=
  fun kv hkv => h kv (RM.mem_of_mem_erase hkv)

theorem applyDescription_name (p : Project) (d : Option String) :
    (applyDescription p d).name = p.name := by
  cases d <;> rfl

theorem applyDescription_id (p : Project) (d : Option String) :
    (applyDescription p d).id = p.id := by
  cases d <;> rfl

theorem applyDescription_environments (p : Project) (d : Option String) :
    (applyDescription p d).environments = p.environments := by
  cases d <;> rfl

theorem validDb_create (db : Database) (name : String)
    (d : Option String) (i : String) (n : Nat) (h : ValidDb db) :
    ValidDb (create_project db name d i n).2 := by
  unfold create_project
  by_cases hc : RM.contains db.projects name
  · simpa [hc] using h
  · simp only [hc, if_false]
    exact ⟨RM.nodup_keys_insert _ _ _ h.1, namesMatch_insert h.2 rfl⟩

theorem validDb_update (db : Database) (name : String)
    (nn : Option String) (d : Option String) (n : Nat) (h : ValidDb db) :
    ValidDb (update_project db name nn d n).2 := by
  unfold update_project
  cases hlk : RM.lookup db.projects name with
  | none => exact h
  | some project =>
    have hname : project.name = name := h.2 _ (RM.mem_of_lookup_eq_some hlk)
    have hname' : (applyDescription project d).name = name := by
      rw [applyDescription_name, hname]
    have h1 : ValidDb
        { db with projects :=
            RM.insert db.projects name (applyDescription project d) } :=
      ⟨RM.nodup_keys_insert _ _ _ h.1, namesMatch_insert h.2 hname'⟩
    cases nn with
    | none =>
      simp only
      exact ⟨RM.nodup_keys_insert _ _ _ h1.1,
        namesMatch_insert h1.2 (by simp [Project.update_timestamp, hname'])⟩
    | some new_name =>
      simp only
      split
      · exact h1
      · refine ⟨?_, ?_⟩
        · exact RM.nodup_keys_insert _ _ _ (RM.nodup_keys_erase _ _ h1.1)
        · exact namesMatch_insert (namesMatch_erase h1.2) rfl

theorem validDb_delete (db : Database) (name : String) (h : ValidDb db) :
    ValidDb (delete_project db name).2 := by
  unfold delete_project
  by_cases hc : RM.contains db.projects name
  · simp only [hc, if_true]
    exact ⟨RM.nodup_keys_erase _ _ h.1, namesMatch_erase h.2⟩
  · simpa [hc] using h

theorem validDb_setVariable (db : Database) (pn e k v : String)
    (enc : Bool) (n : Nat) (h : ValidDb db) :
    ValidDb (set_variable db pn e k v enc n).2 := by
  unfold set_variable
  cases hlk : RM.lookup db.projects pn with
  | none => exact h
  | some project =>
    have hname : project.name = pn := h.2 _ (RM.mem_of_lookup_eq_some hlk)
    exact ⟨RM.nodup_keys_insert _ _ _ h.1, namesMatch_insert h.2 hname⟩

theorem validDb_deleteVariable (db : Database) (pn e k : String) (n : Nat)
    (h : ValidDb db) : ValidDb (delete_variable db pn e k n).2 := by
  cases hlk : RM.lookup db.projects pn with
  | none => simpa [delete_variable, hlk] using h
  | some project =>
    cases hle : RM.lookup project.environments e with
    | none => simpa [delete_variable, hlk, hle] using h
    | some environment =>
      by_cases hc : RM.contains environment k
      · have hname : project.name = pn := h.2 _ (RM.mem_of_lookup_eq_some hlk)
        simp only [delete_variable, hlk, hle, hc, not_true, ite_false,
          Bool.false_eq_true, if_false]
        exact ⟨RM.nodup_keys_insert _ _ _ h.1, namesMatch_insert h.2 hname⟩
      · simpa [delete_variable, hlk, hle, hc] using h

theorem validDb_step (db : Database) (op : Op) (h : ValidDb db) :
    ValidDb (step db op) := by
  cases op with
  | createProject name d i n => exact validDb_create db name d i n h
  | getProject _ => exact h
  | listProjectsOp => exact h
  | updateProject name nn d n => exact validDb_update db name nn d n h
  | deleteProject name => exact validDb_delete db name h
  | setVariable pn e k v enc n => exact validDb_setVariable db pn e k v enc n h
  | getVariable _ _ _ => exact h
  | getEnvironment _ _ => exact h
  | listEnvironmentsOp _ => exact h
  | deleteVariable pn e k n => exact validDb_deleteVariable db pn e k n h

theorem validDb_run (db : Database) (ops : List Op) (h : ValidDb db) :
    ValidDb (run db ops) := by
  induction ops generalizing db with
  | nil => exact h
  | cons op rest ih => exact ih (step db op) (validDb_step db op h)

theorem validDb_default (now : Nat) : ValidDb (Database.default now) :=
  ⟨List.nodup_nil, fun kv hkv => absurd hkv (List.not_mem_nil kv)⟩

theorem validDb_names_pairwise (db : Database) (h : ValidDb db) :
    (list_projects db).Pairwise (fun p q => p.name ≠ q.name) := by
  have h1 : db.projects.Pairwise (fun a b => a.1 ≠ b.1) :=
    List.pairwise_map.mp h.1
  refine List.pairwise_map.mpr ?_
  refine List.Pairwise.imp_of_mem ?_ h1
  intro a b ha hb hne
  rw [h.2 a ha, h.2 b hb]
  exact hne

/-! ### Round-trip of the persistence codec -/

theorem decodeEnvVariable_encode (v : EnvVariable) :
    decodeEnvVariable (encodeEnvVariable v) = some v := rfl

theorem decodeEntries_encode {α : Type} (enc : α → Json)
    (dec : Json → Option α) (h : ∀ a, dec (enc a) = some a)
    (l : List (String × α)) :
    decodeEntries dec (l.map (fun kv => (kv.1, enc kv.2))) = some l := by
  induction l with
  | nil => rfl
  | cons kv rest ih => simp [decodeEntries, h, ih]

theorem decodeEnvironment_encode (env : Environment) :
    decodeEnvironment (encodeEnvironment env) = some env := by
  simp [decodeEnvironment, encodeEnvironment,
    decodeEntries_encode _ _ decodeEnvVariable_encode]

theorem decodeDescription_encode (d : Option String) :
    decodeDescription (some (encodeDescription d)) = some d := by
  cases d <;> rfl

theorem decodeProject_encode (p : Project) :
    decodeProject (encodeProject p) = some p := by
  have hd := decodeDescription_encode p.description
  have he := decodeEntries_encode _ _ decodeEnvironment_encode p.environments
  simp [decodeProject, encodeProject, RM.lookup, hd, he]

theorem decodeMetadata_encode (m : Metadata) :
    decodeMetadata (encodeMetadata m) = some m := rfl

theorem decodeDatabase_encode (db : Database) :
    decodeDatabase (encodeDatabase db) = some db := by
  have hp := decodeEntries_encode _ _ decodeProject_encode db.projects
  simp [decodeDatabase, encodeDatabase, RM.lookup, hp, decodeMetadata_encode]

/-! ### The claims -/

/-- C1 as stated is false on the code: with projects `A` and `B` present,
`update_project("A", new_name = "B", description = Some "newdesc")` fails
with `AlreadyExists` as claimed, but the in-memory aggregate is NOT left
exactly as before the call — the code assigns the new description through
`get_mut` (store.rs lines 84–86) before performing the conflict check on
`new_name` (line 89), so project `A`'s description is already overwritten
when the error returns. -/
theorem C1_counterexample :
    (update_project sampleDb "A" (some "B") (some "newdesc") 5).1 =
      .error (.ProjectAlreadyExists "B") ∧
    (update_project sampleDb "A" (some "B") (some "newdesc") 5).2 ≠
      sampleDb :=
  ⟨rfl, by decide⟩

/-- C1 (amended): if `new_name` differs from `name` and is already the key
of another project, `update_project` fails with `AlreadyExists` and does not
persist; the project keys and every other project are unchanged, and the
named project keeps its id, name, environments and timestamps — but its
description has already been overwritten in the in-memory aggregate when a
description argument was supplied. -/
theorem C1_update_conflict_amended (db : Database) (name new_name : String)
    (d : Option String) (now : Nat) (p : Project)
    (hp : RM.lookup db.projects name = some p) (hne : new_name ≠ name)
    (hc : RM.contains db.projects new_name = true) :
    update_project db name (some new_name) d now =
      (.error (.ProjectAlreadyExists new_name),
        { db with projects :=
            RM.insert db.projects name (applyDescription p d) }) := by
  unfold update_project
  rw [hp]
  simp only
  rw [if_pos]
  exact ⟨hne, by rw [RM.contains_insert_ne _ _ _ _ hne]; exact hc⟩

theorem C1_update_conflict_amended_witness :
    update_project sampleDb "A" (some "B") (some "newdesc") 5 =
      (.error (.ProjectAlreadyExists "B"),
        { sampleDb with
            projects :=
              RM.insert sampleDb.projects "A"
                (applyDescription pA (some "newdesc")) }) :=
  C1_update_conflict_amended sampleDb "A" "B" (some "newdesc") 5 pA
    (by decide) (by decide) (by decide)

/-- C3: on a database already containing `name`, `create_project` fails with
`AlreadyExists` and returns the aggregate unchanged; on a database without
`name`, it returns the freshly constructed project, which is then found
under key `name`, and every other key is untouched. -/
theorem C3_create_project_contract (db : Database) (name : String)
    (d : Option String) (i : String) (now : Nat) :
    (RM.contains db.projects name = true →
      create_project db name d i now =
        (.error (.ProjectAlreadyExists name), db)) ∧
    (RM.contains db.projects name = false →
      (create_project db name d i now).1 = .ok (Project.new i name d now) ∧
      get_project (create_project db name d i now).2 name =
        .ok (Project.new i name d now) ∧
      ∀ k, k ≠ name →
        RM.lookup (create_project db name d i now).2.projects k =
          RM.lookup db.projects k) := by
  constructor
  · intro h
    simp [create_project, h]
  · intro h
    refine ⟨by simp [create_project, h], ?_, ?_⟩
    · simp [create_project, h, get_project, RM.lookup_insert]
    · intro k hk
      simp [create_project, h, RM.lookup_insert_ne _ _ _ _ hk]

theorem C3_create_project_contract_witness :
    create_project sampleDb "A" none "id-x" 3 =
      (.error (.ProjectAlreadyExists "A"), sampleDb) ∧
    get_project (create_project sampleDb "C" (some "d") "id-c" 3).2 "C" =
      .ok (Project.new "id-c" "C" (some "d") 3) :=
  ⟨(C3_create_project_contract sampleDb "A" none "id-x" 3).1 (by decide),
   ((C3_create_project_contract sampleDb "C" (some "d") "id-c" 3).2
      (by decide)).2.1⟩

/-- C4: with project `A` present and `B` absent, `update_project(A, some B)`
succeeds and returns the moved project; afterwards `get_project "A"` fails
with `NotFound` and `get_project "B"` returns a project with the same `id`
and `environments` as `A` had before the rename. -/
theorem C4_rename_is_move (db : Database) (A B : String) (p : Project)
    (now : Nat) (hA : RM.lookup db.projects A = some p)
    (hB : RM.contains db.projects B = false) (hne : B ≠ A) :
    (update_project db A (some B) none now).1 =
      .ok { p with name := B, updated_at := now } ∧
    get_project (update_project db A (some B) none now).2 A =
      .error (.ProjectNotFound A) ∧
    get_project (update_project db A (some B) none now).2 B =
      .ok { p with name := B, updated_at := now } ∧
    ({ p with name := B, updated_at := now } : Project).id = p.id ∧
    ({ p with name := B, updated_at := now } : Project).environments =
      p.environments := by
  have hcond : ¬(B ≠ A ∧
      RM.contains (RM.insert db.projects A (applyDescription p none)) B = true) := by
    rintro ⟨-, hc⟩
    rw [RM.contains_insert_ne _ _ _ _ hne, hB] at hc
    exact Bool.false_ne_true hc
  refine ⟨?_, ?_, ?_, rfl, rfl⟩
  · unfold update_project
    rw [hA]
    simp only
    rw [if_neg hcond]
    rfl
  · unfold update_project
    rw [hA]
    simp only
    rw [if_neg hcond]
    simp only [get_project]
    rw [RM.lookup_insert_ne _ _ _ _ (Ne.symm hne), RM.lookup_erase]
  · unfold update_project
    rw [hA]
    simp only
    rw [if_neg hcond]
    simp only [get_project]
    rw [RM.lookup_insert]
    rfl

/-- C5: `set_variable` on an existing project succeeds with exactly the
variable `EnvVariable::new(value, encrypted)` (value `v`, encrypted flag
`b`, fresh timestamps), and an immediate `get_variable` with the same
project/env/key returns that variable — the environment having been created
on demand when absent. -/
theorem C5_set_then_get (db : Database) (pn e k v : String) (b : Bool)
    (now : Nat) (p : Project) (hp : RM.lookup db.projects pn = some p) :
    (set_variable db pn e k v b now).1 = .ok (EnvVariable.new v b now) ∧
    get_variable (set_variable db pn e k v b now).2 pn e k =
      .ok (EnvVariable.new v b now) ∧
    (EnvVariable.new v b now).value = v ∧
    (EnvVariable.new v b now).encrypted = b := by
  refine ⟨?_, ?_, rfl, rfl⟩
  · unfold set_variable
    rw [hp]
  · unfold set_variable
    rw [hp]
    simp only [get_variable, RM.lookup_insert]

theorem C5_set_then_get_witness :
    (set_variable sampleDb "A" "prod" "DB_URL" "postgres" false 7).1 =
      .ok (EnvVariable.new "postgres" false 7) ∧
    get_variable (set_variable sampleDb "A" "prod" "DB_URL" "postgres"
        false 7).2 "A" "prod" "DB_URL" =
      .ok (EnvVariable.new "postgres" false 7) ∧
    (EnvVariable.new "postgres" false 7).value = "postgres" ∧
    (EnvVariable.new "postgres" false 7).encrypted = false :=
  C5_set_then_get sampleDb "A" "prod" "DB_URL" "postgres" false 7 pA
    (by decide)

/-- C6: deleting an existing project succeeds; afterwards no project in
`list_projects` bears its name, and `get_variable` against any environment
and key of the deleted project fails with `ProjectNotFound` — its nested
data is unreachable. -/
theorem C6_delete_project_cascades (db : Database) (pn : String)
    (h : ValidDb db) (hc : RM.contains db.projects pn = true) :
    (delete_project db pn).1 = .ok () ∧
    (∀ q ∈ list_projects (delete_project db pn).2, q.name ≠ pn) ∧
    ∀ e k, get_variable (delete_project db pn).2 pn e k =
      .error (.ProjectNotFound pn) := by
  refine ⟨?_, ?_, ?_⟩
  · simp [delete_project, hc]
  · intro q hq
    simp only [delete_project, hc, if_true, list_projects, RM.values] at hq
    rcases List.mem_map.mp hq with ⟨kv, hkv, hsnd⟩
    have hname : kv.2.name = kv.1 := h.2 kv (RM.mem_of_mem_erase hkv)
    have hfst : kv.1 ≠ pn := RM.fst_ne_of_mem_erase hkv
    rw [← hsnd, hname]
    exact hfst
  · intro e k
    simp [delete_project, hc, get_variable, RM.lookup_erase]

theorem C6_delete_project_cascades_witness :
    (delete_project sampleDb "A").1 = .ok () ∧
    (∀ q ∈ list_projects (delete_project sampleDb "A").2, q.name ≠ "A") ∧
    ∀ e k, get_variable (delete_project sampleDb "A").2 "A" e k =
      .error (.ProjectNotFound "A") :=
  C6_delete_project_cascades sampleDb "A" (by decide) (by decide)

/-- C7: with project `pn` and environment `e` present, `delete_variable` on
an absent key fails with `VariableNotFound` and leaves the whole aggregate
(and hence the environment and the project timestamp) unchanged; on a
present key it succeeds, stores the project with exactly that key erased
from `e` and with `updated_at` refreshed to `now`, removing no other key. -/
theorem C7_delete_variable_contract (db : Database) (pn e k : String)
    (now : Nat) (p : Project) (env : Environment)
    (hp : RM.lookup db.projects pn = some p)
    (he : RM.lookup p.environments e = some env) :
    (RM.contains env k = false →
      delete_variable db pn e k now = (.error (.VariableNotFound k), db)) ∧
    (RM.contains env k = true →
      (delete_variable db pn e k now).1 = .ok () ∧
      RM.lookup (delete_variable db pn e k now).2.projects pn =
        some { p with
                 environments :=
                   RM.insert p.environments e (RM.erase env k),
                 updated_at := now } ∧
      RM.lookup (RM.erase env k) k = none ∧
      ∀ k', k' ≠ k → RM.lookup (RM.erase env k) k' = RM.lookup env k') := by
  constructor
  · intro hck
    simp [delete_variable, hp, he, hck]
  · intro hck
    refine ⟨?_, ?_, RM.lookup_erase env k, fun k' hk' => RM.lookup_erase_ne env k k' hk'⟩
    · simp [delete_variable, hp, he, hck]
    · simp only [delete_variable, hp, he, hck, not_true, ite_false,
        Bool.false_eq_true, if_false]
      rw [RM.lookup_insert]

theorem C7_delete_variable_contract_witness :
    (delete_variable dbWithVar "A" "prod" "MISSING" 9 =
      (.error (.VariableNotFound "MISSING"), dbWithVar)) ∧
    (delete_variable dbWithVar "A" "prod" "DB_URL" 9).1 = .ok () :=
  ⟨(C7_delete_variable_contract dbWithVar "A" "prod" "MISSING" 9 pVar
      [("DB_URL", EnvVariable.new "postgres" false 7)] (by decide)
      (by decide)).1 (by decide),
   ((C7_delete_variable_contract dbWithVar "A" "prod" "DB_URL" 9 pVar
      [("DB_URL", EnvVariable.new "postgres" false 7)] (by decide)
      (by decide)).2 (by decide)).1⟩

/-- C10: deleting the only variable of an environment succeeds and leaves
the now-empty environment present in the project: `get_environment`
afterwards returns `ok` with the empty mapping instead of failing with
`EnvironmentNotFound`. -/
theorem C10_empty_environment_kept (db : Database) (pn e k : String)
    (v : EnvVariable) (now : Nat) (p : Project)
    (hp : RM.lookup db.projects pn = some p)
    (he : RM.lookup p.environments e = some [(k, v)]) :
    (delete_variable db pn e k now).1 = .ok () ∧
    get_environment (delete_variable db pn e k now).2 pn e = .ok [] := by
  have hck : RM.contains [(k, v)] k = true := by simp [RM.contains]
  have herase : RM.erase [(k, v)] k = ([] : Environment) := by
    simp [RM.erase]
  constructor
  · simp [delete_variable, hp, he, hck]
  · simp only [delete_variable, hp, he, hck, not_true, ite_false,
      Bool.false_eq_true, if_false]
    simp only [get_environment, RM.lookup_insert, herase]

theorem C10_empty_environment_kept_witness :
    (delete_variable dbWithVar "A" "prod" "DB_URL" 9).1 = .ok () ∧
    get_environment (delete_variable dbWithVar "A" "prod" "DB_URL" 9).2
      "A" "prod" = .ok [] :=
  C10_empty_environment_kept dbWithVar "A" "prod" "DB_URL"
    (EnvVariable.new "postgres" false 7) 9 pVar (by decide) (by decide)

/-- C2: starting from any valid database state, after any sequence of store
operations (and hence at every observation point along any longer sequence)
the projects visible through `list_projects` have pairwise distinct names. -/
theorem C2_project_names_unique (db : Database) (ops : List Op)
    (h : ValidDb db) :
    (list_projects (run db ops)).Pairwise (fun p q => p.name ≠ q.name) :=
  validDb_names_pairwise _ (validDb_run db ops h)

theorem C2_project_names_unique_witness :
    (list_projects (run (Database.default 0)
        [.createProject "A" none "id-a" 0,
         .createProject "B" (some "d") "id-b" 1,
         .createProject "A" none "id-c" 2,
         .updateProject "B" (some "A") none 3,
         .setVariable "A" "dev" "K" "V" false 4])).Pairwise
      (fun p q => p.name ≠ q.name) :=
  C2_project_names_unique (Database.default 0) _ (by decide)

/-- C9: in every database reachable from the empty default database by a
sequence of store operations, each entry of `Database.projects` stores a
project whose `name` field equals its map key. -/
theorem C9_map_key_is_project_name (now : Nat) (ops : List Op)
    (kv : String × Project)
    (hkv : kv ∈ (run (Database.default now) ops).projects) :
    kv.2.name = kv.1 :=
  (validDb_run _ ops (validDb_default now)).2 kv hkv

theorem C9_map_key_is_project_name_witness :
    (("api", Project.new "id-1" "api" (some "desc") 0) :
        String × Project).2.name = "api" :=
  C9_map_key_is_project_name 0 [.createProject "api" (some "desc") "id-1" 0]
    ("api", Project.new "id-1" "api" (some "desc") 0) (by decide)

theorem C4_rename_is_move_witness :
    (update_project sampleDb "A" (some "C") none 5).1 =
      .ok { pA with name := "C", updated_at := 5 } ∧
    get_project (update_project sampleDb "A" (some "C") none 5).2 "A" =
      .error (.ProjectNotFound "A") ∧
    get_project (update_project sampleDb "A" (some "C") none 5).2 "C" =
      .ok { pA with name := "C", updated_at := 5 } ∧
    ({ pA with name := "C", updated_at := 5 } : Project).id = pA.id ∧
    ({ pA with name := "C", updated_at := 5 } : Project).environments =
      pA.environments :=
  C4_rename_is_move sampleDb "A" "C" pA 5 (by decide) (by decide) (by decide)

/-- C8: for every serialized database that parses successfully into an
aggregate (what `JsonStore::new` does with an existing backing file),
immediately saving that aggregate (`JsonStore::save` serializes it in full)
yields a serialized form that parses back to the very same aggregate: all
projects, environments, variables and metadata are preserved.  The decoders
look fields up by name, so the equivalence is independent of the ordering
of keys in the textual form. -/
theorem C8_load_then_save_equivalent (j : Json) (db : Database)
    (h : decodeDatabase j = some db) :
    decodeDatabase (encodeDatabase db) = some db :=
  decodeDatabase_encode db

theorem C8_load_then_save_equivalent_witness :
    decodeDatabase (encodeDatabase dbWithVar) = some dbWithVar :=
  C8_load_then_save_equivalent (encodeDatabase dbWithVar) dbWithVar rfl

end RustyEnv
